import Mathlib

set_option maxHeartbeats 1000000

/-!
Verification development for `device/scripts/change_defines.py` of
SEAL-Embedded: a shallow embedding of the script's line-rewriting
routine `file_line_rep`, its five per-macro read-modify-write wrappers,
and its command-line driver `main`, together with theorems settling the
specification's claims about them.

Python strings are modelled as `List Char`; the file being edited is a
list of lines; raising an exception is modelled with `Except`/explicit
outcome types.
-/

/-- A line of text, as the script manipulates it: a sequence of characters. -/
abbrev Line := List Char

/-- Characters of a string literal. -/
def strChars (s : String) : Line := s.data

/-- Python `s.replace(pat, repl)` on character lists: scan left to
right, replacing each non-overlapping occurrence of `pat` with `repl`;
an empty pattern matches at every position and at the end of the
string. -/
def pyReplace (pat repl : Line) : Line → Line
  | [] => if pat = [] then repl else []
  | c :: rest =>
    if pat ≠ [] ∧ pat.isPrefixOf (c :: rest) then
      repl ++ pyReplace pat repl (rest.drop (pat.length - 1))
    else if pat = [] then
      repl ++ c :: pyReplace pat repl rest
    else
      c :: pyReplace pat repl rest
termination_by l => l.length
decreasing_by
  · simp only [List.length_cons, List.length_drop]
    omega
  · simp
  · simp

/-- Python `line.find(pat) != -1`: does `pat` occur as a contiguous
substring of `line`? -/
def containsSub : Line → Line → Bool
  | [], pat => pat.isPrefixOf ([] : Line)
  | c :: rest, pat => pat.isPrefixOf (c :: rest) || containsSub rest pat

/-- The decimal digit character for `n < 10`. -/
def digitCh (n : Nat) : Char := Char.ofNat (48 + n)

/-- Decimal digit characters of a natural number, most significant
first, exactly as Python `str` renders a non-negative integer. -/
def natDigits (n : Nat) : List Char :=
  if n < 10 then [digitCh n]
  else natDigits (n / 10) ++ [digitCh (n % 10)]
termination_by n
decreasing_by
  rename_i h
  simp only [not_lt] at h
  omega

/-- Python `str` of an integer. -/
def strOfInt (i : Int) : Line :=
  if i < 0 then '-' :: natDigits i.natAbs else natDigits i.toNat

/-- Python `range(lo, hi + 1)`, as the list of integers it yields. -/
def rangeList (lo hi : Int) : List Int :=
  (List.range (hi + 1 - lo).toNat).map (fun (n : Nat) => lo + (n : Int))

/-- The search pattern `"<base> <k>"` built by the rewrite loop
(`base_string + " " + str(i)` in the script). -/
def patStr (base : Line) (k : Int) : Line := base ++ ' ' :: strOfInt k

/-- Body of the per-line loop of `file_line_rep`: a line containing
`base` has every occurrence of `"<base> <i>"` replaced by
`"<base> <set_val>"` for each `i` from `min_val` to `max_val` in
increasing order, each replacement applied to the cumulative result;
a line not containing `base` passes through unchanged. -/
def processLine (base : Line) (min_val max_val set_val : Int) (line : Line) : Line :=
  if containsSub line base then
    (rangeList min_val max_val).foldl
      (fun l i => pyReplace (patStr base i) (patStr base set_val) l) line
  else line

/-- The script's `file_line_rep`: validate the range (the two `raise`
statements are modelled by `Except.error`), then rewrite every line. -/
def file_line_rep (filedata : List Line) (base_string : Line)
    (min_val max_val set_val : Int) : Except Unit (List Line) :=
  if max_val < min_val then .error ()
  else if set_val > max_val ∨ set_val < min_val then .error ()
  else .ok (filedata.map (processLine base_string min_val max_val set_val))

/-! The five macro names and ranges hard-coded in the `set_*_define`
functions of the script. -/

def ifftName : Line := strChars "#define SE_IFFT_TYPE"

def nttName : Line := strChars "#define SE_NTT_TYPE"

def indexMapName : Line := strChars "#define SE_INDEX_MAP_TYPE"

def skName : Line := strChars "#define SE_SK_TYPE"

def dataLoadName : Line := strChars "#define SE_DATA_LOAD_TYPE"

/-- Outcome of one `set_*_define` call on the file it edits: the
rewrite either raised — leaving the file as it was, since the `raise`
in `file_line_rep` happens before the file is reopened for writing —
or wrote the new content back in place. -/
inductive RewriteResult where
  | raised (file : List Line)
  | wrote (file : List Line)
deriving DecidableEq

/-- The read-modify-write pass shared by the five `set_*_define`
functions: read the file's lines, run `file_line_rep`, and write the
result back over the same file on success. -/
def storeRewrite (base : Line) (min_val max_val set_val : Int)
    (file : List Line) : RewriteResult :=
  match file_line_rep file base min_val max_val set_val with
  | .error _ => .raised file
  | .ok newfiledata => .wrote newfiledata

/-- The script's `set_ifft_define`, acting on the file content. -/
def set_ifft_define (set_val : Int) (file : List Line) : RewriteResult :=
  storeRewrite ifftName 0 2 set_val file

/-- The script's `set_ntt_define`, acting on the file content. -/
def set_ntt_define (set_val : Int) (file : List Line) : RewriteResult :=
  storeRewrite nttName 0 3 set_val file

/-- The script's `set_index_map_define`, acting on the file content. -/
def set_index_map_define (set_val : Int) (file : List Line) : RewriteResult :=
  storeRewrite indexMapName 0 4 set_val file

/-- The script's `set_sk_define`, acting on the file content. -/
def set_sk_define (set_val : Int) (file : List Line) : RewriteResult :=
  storeRewrite skName 0 2 set_val file

/-- The script's `set_data_load_define`, acting on the file content. -/
def set_data_load_define (set_val : Int) (file : List Line) : RewriteResult :=
  storeRewrite dataLoadName 0 2 set_val file

/-- A macro name together with its declared value range (the spec's
MacroSpec); the five instances below carry the constants hard-coded in
the script's `set_*_define` functions. -/
structure MacroSpec where
  name : Line
  minVal : Int
  maxVal : Int
deriving DecidableEq

def ifftSpec : MacroSpec := ⟨ifftName, 0, 2⟩

def nttSpec : MacroSpec := ⟨nttName, 0, 3⟩

def indexMapSpec : MacroSpec := ⟨indexMapName, 0, 4⟩

def skSpec : MacroSpec := ⟨skName, 0, 2⟩

def dataLoadSpec : MacroSpec := ⟨dataLoadName, 0, 2⟩

/-- The five fixed macros the script knows about. -/
def allSpecs : List MacroSpec :=
  [ifftSpec, nttSpec, indexMapSpec, skSpec, dataLoadSpec]

/-! The command-line driver.  `main` parses its options with Python's
`getopt.getopt(argv, "hi:n:m:s:d:", ["ifft=", "ntt=", "index_map=",
"sk=", "data_load="])`, so the relevant part of the `getopt` library is
embedded below. -/

/-- A parsed option as getopt yields it: flag characters and argument
characters. -/
abbrev OptPair := Line × Line

def shortoptsArg : Line := strChars "hi:n:m:s:d:"

def longoptsArg : List Line :=
  [strChars "ifft=", strChars "ntt=", strChars "index_map=",
   strChars "sk=", strChars "data_load="]

/-- Python getopt's `short_has_arg`: scan the short-option string for
`c`; on a hit the option takes an argument exactly when the next
character is a colon; an unknown flag raises `GetoptError`
(`Except.error`). -/
def shortHasArg (c : Char) : Line → Except Unit Bool
  | [] => .error ()
  | x :: rest =>
    if c = x ∧ x ≠ ':' then .ok (decide (rest.head? = some ':'))
    else shortHasArg c rest

/-- Python getopt's `do_shorts`.  Instead of the remaining argument
list it returns whether the next command-line argument was consumed as
an option argument; at most that one argument is ever taken, so the
two forms are equivalent. -/
def do_shorts (opts : List OptPair) (optstring : Line) (shortopts : Line)
    (nextArg : Option Line) : Except Unit (List OptPair × Bool) :=
  match optstring with
  | [] => .ok (opts, false)
  | c :: rest =>
    match shortHasArg c shortopts with
    | .error _ => .error ()
    | .ok hasArg =>
      if hasArg then
        if rest = [] then
          match nextArg with
          | none => .error ()
          | some a => .ok (opts ++ [(['-', c], a)], true)
        else .ok (opts ++ [(['-', c], rest)], false)
      else do_shorts (opts ++ [(['-', c], [])]) rest shortopts nextArg

/-- Split a long option at its first `=` (Python `opt.index('=')`
and the two slices around it). -/
def splitEq : Line → Option (Line × Line)
  | [] => none
  | c :: rest =>
    if c = '=' then some ([], rest)
    else
      match splitEq rest with
      | none => none
      | some (a, b) => some (c :: a, b)

/-- Python getopt's `long_has_args`: match `opt` against the declared
long options by unique-prefix expansion; report whether the matched
option takes an argument and its full name. -/
def long_has_args (opt : Line) (longopts : List Line) : Except Unit (Bool × Line) :=
  let possibilities := longopts.filter (fun o => opt.isPrefixOf o)
  if possibilities = [] then .error ()
  else if opt ∈ possibilities then .ok (false, opt)
  else if (opt ++ ['=']) ∈ possibilities then .ok (true, opt)
  else
    match possibilities with
    | [u] => if u.getLast? = some '=' then .ok (true, u.dropLast) else .ok (false, u)
    | _ => .error ()

/-- Python getopt's `do_longs`, with the same consumed-next-argument
convention as `do_shorts`. -/
def do_longs (opts : List OptPair) (opt : Line) (longopts : List Line)
    (nextArg : Option Line) : Except Unit (List OptPair × Bool) :=
  let parts := splitEq opt
  let optName := match parts with | none => opt | some (a, _) => a
  let optarg : Option Line := match parts with | none => none | some (_, b) => some b
  match long_has_args optName longopts with
  | .error _ => .error ()
  | .ok (hasArg, opt2) =>
    if hasArg then
      match optarg with
      | none =>
        match nextArg with
        | none => .error ()
        | some a => .ok (opts ++ [('-' :: '-' :: opt2, a)], true)
      | some oa => .ok (opts ++ [('-' :: '-' :: opt2, oa)], false)
    else
      match optarg with
      | some _ => .error ()
      | none => .ok (opts ++ [('-' :: '-' :: opt2, [])], false)

/-- The argument-scanning loop of Python `getopt.getopt`. -/
def getoptLoop (opts : List OptPair) (args : List Line)
    (shortopts : Line) (longopts : List Line) :
    Except Unit (List OptPair × List Line) :=
  match args with
  | [] => .ok (opts, [])
  | a :: rest =>
    if a.head? ≠ some '-' ∨ a = ['-'] then .ok (opts, a :: rest)
    else if a = ['-', '-'] then .ok (opts, rest)
    else if a.take 2 = ['-', '-'] then
      match do_longs opts (a.drop 2) longopts rest.head? with
      | .error _ => .error ()
      | .ok (opts2, consumed) =>
        getoptLoop opts2 (if consumed then rest.tail else rest) shortopts longopts
    else
      match do_shorts opts (a.drop 1) shortopts rest.head? with
      | .error _ => .error ()
      | .ok (opts2, consumed) =>
        getoptLoop opts2 (if consumed then rest.tail else rest) shortopts longopts
termination_by args.length
decreasing_by
  · cases consumed <;> (simp [List.length_tail]; try omega)
  · cases consumed <;> (simp [List.length_tail]; try omega)

/-- Python `getopt.getopt` with the short and long option declarations
`main` passes. -/
def getoptM (argv : List Line) : Except Unit (List OptPair × List Line) :=
  getoptLoop [] argv shortoptsArg longoptsArg

/-- Value of an all-digit string read MSD-first (the core of `int`). -/
def digitsVal (l : Line) : Nat := l.foldl (fun acc c => acc * 10 + (c.toNat - 48)) 0

/-- Python `int(s)` on a decimal string: optional surrounding
whitespace, an optional sign, then one or more ASCII digits.  Forms the
tool never receives from its own documentation (underscore separators,
non-ASCII digits) are out of scope.  `none` models the `ValueError`
that `int` raises on anything else. -/
def pyInt (s : Line) : Option Int :=
  let t := ((s.dropWhile Char.isWhitespace).reverse.dropWhile Char.isWhitespace).reverse
  let sign : Int := if t.head? = some '-' then -1 else 1
  let digits : Line := if t.head? = some '-' ∨ t.head? = some '+' then t.tail else t
  if digits ≠ [] ∧ digits.all Char.isDigit then some (sign * (digitsVal digits : Int))
  else none

/-- The five option variables of `main`, each initialised to the
sentinel `-1`. -/
structure OptVals where
  ifft : Int
  ntt : Int
  index_map : Int
  sk : Int
  data_load : Int
deriving DecidableEq

def initVals : OptVals := ⟨-1, -1, -1, -1, -1⟩

/-- How a run of `main` terminates. -/
inductive Outcome where
  | usageExit2
  | helpExit0
  | valueErrorExit
  | missingOpt (msg : String)
  | rangeAbort
  | done
deriving DecidableEq

/-- The option-assignment loop of `main`: `-h` prints the usage text
and exits at once; each recognised option stores `int(arg)` into its
variable, a later occurrence overwriting an earlier one. -/
def procOpts : List OptPair → OptVals → Except Outcome OptVals
  | [], vals => .ok vals
  | (opt, arg) :: rest, vals =>
    if opt = strChars "-h" then .error .helpExit0
    else if opt = strChars "-i" ∨ opt = strChars "--ifft" then
      match pyInt arg with
      | none => .error .valueErrorExit
      | some v => procOpts rest { vals with ifft := v }
    else if opt = strChars "-n" ∨ opt = strChars "--ntt" then
      match pyInt arg with
      | none => .error .valueErrorExit
      | some v => procOpts rest { vals with ntt := v }
    else if opt = strChars "-m" ∨ opt = strChars "--index_map" then
      match pyInt arg with
      | none => .error .valueErrorExit
      | some v => procOpts rest { vals with index_map := v }
    else if opt = strChars "-s" ∨ opt = strChars "--sk" then
      match pyInt arg with
      | none => .error .valueErrorExit
      | some v => procOpts rest { vals with sk := v }
    else if opt = strChars "-d" ∨ opt = strChars "--data_load" then
      match pyInt arg with
      | none => .error .valueErrorExit
      | some v => procOpts rest { vals with data_load := v }
    else procOpts rest vals

def ifftMissingMsg : String := "Error: Need to choose an ifft option"

def nttMissingMsg : String := "Error: Need to choose an ntt option"

def indexMapMissingMsg : String := "Error: Need to choose an index_map option"

def skMissingMsg : String := "Error: Need to choose an sk option"

def dataLoadMissingMsg : String := "Error: Need to choose a data load option"

/-- Result of a driver run: how the process exited, the final content
of `lib/user_defines.h`, and the rewriter invocations made, in order,
as pairs of macro name and requested value. -/
structure DriverResult where
  outcome : Outcome
  file : List Line
  calls : List (Line × Int)
deriving DecidableEq

/-- The five sequential `set_*_define` calls at the end of `main`,
threading the file content through the five read-modify-write passes
and recording each rewriter invocation. -/
def runRewrites (vals : OptVals) (file : List Line) : DriverResult :=
  match set_ifft_define vals.ifft file with
  | .raised f => ⟨.rangeAbort, f, [(ifftName, vals.ifft)]⟩
  | .wrote f1 =>
    match set_ntt_define vals.ntt f1 with
    | .raised f => ⟨.rangeAbort, f, [(ifftName, vals.ifft), (nttName, vals.ntt)]⟩
    | .wrote f2 =>
      match set_index_map_define vals.index_map f2 with
      | .raised f => ⟨.rangeAbort, f,
          [(ifftName, vals.ifft), (nttName, vals.ntt), (indexMapName, vals.index_map)]⟩
      | .wrote f3 =>
        match set_sk_define vals.sk f3 with
        | .raised f => ⟨.rangeAbort, f,
            [(ifftName, vals.ifft), (nttName, vals.ntt), (indexMapName, vals.index_map),
             (skName, vals.sk)]⟩
        | .wrote f4 =>
          match set_data_load_define vals.data_load f4 with
          | .raised f => ⟨.rangeAbort, f,
              [(ifftName, vals.ifft), (nttName, vals.ntt), (indexMapName, vals.index_map),
               (skName, vals.sk), (dataLoadName, vals.data_load)]⟩
          | .wrote f5 => ⟨.done, f5,
              [(ifftName, vals.ifft), (nttName, vals.ntt), (indexMapName, vals.index_map),
               (skName, vals.sk), (dataLoadName, vals.data_load)]⟩

/-- The post-parse validation of `main`: the first negative (unset)
option value, in the fixed order ifft, ntt, index_map, sk, data_load,
prints its "Need to choose" message and exits before any rewrite;
otherwise the five rewrites run. -/
def checkAndRun (vals : OptVals) (file : List Line) : DriverResult :=
  if vals.ifft < 0 then ⟨.missingOpt ifftMissingMsg, file, []⟩
  else if vals.ntt < 0 then ⟨.missingOpt nttMissingMsg, file, []⟩
  else if vals.index_map < 0 then ⟨.missingOpt indexMapMissingMsg, file, []⟩
  else if vals.sk < 0 then ⟨.missingOpt skMissingMsg, file, []⟩
  else if vals.data_load < 0 then ⟨.missingOpt dataLoadMissingMsg, file, []⟩
  else runRewrites vals file

/-- The script's `main(argv)`, acting on the content of
`lib/user_defines.h`. -/
def mainRun (argv : List Line) (file : List Line) : DriverResult :=
  match getoptM argv with
  | .error _ => ⟨.usageExit2, file, []⟩
  | .ok (opts, _) =>
    match procOpts opts initVals with
    | .error o => ⟨o, file, []⟩
    | .ok vals => checkAndRun vals file

/-- The spec's wording of the Define Rewriter contract, written
separately from the embedding of the code for comparison: every line
containing the macro's name has any occurrence of `"<name> <k>"` for
`k` in `[min, max]` replaced with `"<name> <target>"`, for every `k`
in increasing order, each replacement applied to the cumulative result
of the prior ones; lines not containing the macro name are copied
unchanged. -/
def specRewrite (filedata : List Line) (m : MacroSpec) (target : Int) : List Line :=
  filedata.map fun line =>
    if containsSub line m.name then
      (rangeList m.minVal m.maxVal).foldl
        (fun l k => pyReplace (patStr m.name k) (patStr m.name target) l) line
    else line

/-! Supporting lemmas about the embedded string operations. -/

open List

theorem containsSub_iff {s pat : Line} : containsSub s pat = true ↔ pat <:+: s := by
  induction s with
  | nil => simp [containsSub]
  | cons c rest ih =>
    simp only [containsSub, Bool.or_eq_true, ih, isPrefixOf_iff_prefix]
    rw [ infix_cons_iff]

theorem pyReplace_nil (pat repl : Line) :
    pyReplace pat repl [] = if pat = [] then repl else [] := by
  simp only [pyReplace]

theorem pyReplace_cons_pos {pat : Line} (repl : Line) {c : Char} {rest : Line}
    (h : pat ≠ []) (hp : pat <+: c :: rest) :
    pyReplace pat repl (c :: rest) =
      repl ++ pyReplace pat repl (rest.drop (pat.length - 1)) := by
  rw [pyReplace]
  simp [h, isPrefixOf_iff_prefix, hp]

theorem pyReplace_cons_neg {pat : Line} (repl : Line) {c : Char} {rest : Line}
    (h : pat ≠ []) (hp : ¬ pat <+: c :: rest) :
    pyReplace pat repl (c :: rest) = c :: pyReplace pat repl rest := by
  rw [pyReplace]
  simp [h, isPrefixOf_iff_prefix, hp]

theorem pyReplace_append_pos {pat : Line} (repl : Line) (h : pat ≠ []) (t : Line) :
    pyReplace pat repl (pat ++ t) = repl ++ pyReplace pat repl (t : Line) := by
  match pat, h with
  | p :: pat2, _ =>
    have hp : (p :: pat2) <+: p :: (pat2 ++ t) := by
      rw [← List.cons_append]; exact prefix_append _ _
    rw [List.cons_append, pyReplace_cons_pos repl (by simp) hp]
    congr 1
    have hd : (pat2 ++ t).drop ((p :: pat2).length - 1) = t := by
      simp only [List.length_cons, Nat.add_sub_cancel, List.drop_left]
    rw [hd]

theorem pyReplace_not_occ {pat repl : Line} (hpat : pat ≠ []) :
    ∀ s : Line, ¬ pat <:+: s → pyReplace pat repl s = s := by
  intro s
  induction s with
  | nil => intro _; simp [pyReplace_nil, hpat]
  | cons c rest ih =>
    intro h
    have h1 : ¬ pat <+: c :: rest := fun hp => h hp.isInfix
    have h2 : ¬ pat <:+: rest := fun hi => h (hi.trans (suffix_cons c rest).isInfix)
    rw [pyReplace_cons_neg repl hpat h1, ih h2]

theorem pyReplace_self (pat : Line) (s : Line) : pyReplace pat pat s = s := by
  match s with
  | [] => simp [pyReplace_nil]
  | c :: rest =>
    by_cases hpat : pat = []
    · subst hpat
      rw [pyReplace]
      simpa using pyReplace_self [] rest
    · by_cases hp : pat <+: c :: rest
      · obtain ⟨t, ht⟩ := hp
        rw [← ht, pyReplace_append_pos pat hpat t, pyReplace_self pat t]
      · rw [pyReplace_cons_neg pat hpat hp, pyReplace_self pat rest]
termination_by s.length
decreasing_by
  · simp
  · rename_i hlen
    have : pat.length + t.length = (c :: rest).length := by rw [← ht]; simp
    have hp1 : 1 ≤ pat.length := by
      cases pat with
      | nil => exact absurd rfl hpat
      | cons x xs => simp
    simp only [List.length_cons] at this ⊢
    omega
  · simp

theorem pre_append_cases {q u v : Line} (h : q <+: u ++ v) :
    q <+: u ∨ ∃ r, q = u ++ r ∧ r <+: v := by
  induction u generalizing q with
  | nil => exact Or.inr ⟨q, by simp, by simpa using h⟩
  | cons d u2 ih =>
    rw [List.cons_append, prefix_cons_iff] at h
    rcases h with h | ⟨t, rfl, ht⟩
    · subst h
      exact Or.inl ( nil_prefix)
    · rcases ih ht with h2 | ⟨r, rfl, hr⟩
      · exact Or.inl ( cons_prefix_cons.mpr ⟨rfl, h2⟩)
      · exact Or.inr ⟨r, by simp, hr⟩

theorem sub_append_cases {q x y : Line} (h : q <:+: x ++ y) :
    q <:+: x ∨ q <:+: y ∨
      ∃ q₁ q₂, q = q₁ ++ q₂ ∧ q₁ ≠ [] ∧ q₂ ≠ [] ∧ q₁ <:+ x ∧ q₂ <+: y := by
  induction x generalizing q with
  | nil => exact Or.inr (Or.inl (by simpa using h))
  | cons d x2 ih =>
    rw [List.cons_append, infix_cons_iff] at h
    rcases h with h | h
    · rw [← List.cons_append] at h
      rcases pre_append_cases h with h2 | ⟨r, rfl, hr⟩
      · exact Or.inl h2.isInfix
      · rcases eq_or_ne r [] with rfl | hne
        · exact Or.inl (by simp)
        · exact Or.inr (Or.inr ⟨d :: x2, r, rfl, by simp, hne, suffix_refl _, hr⟩)
    · rcases ih h with h2 | h2 | ⟨q₁, q₂, rfl, h1, h2, hs, hp⟩
      · exact Or.inl (h2.trans (suffix_cons d x2).isInfix)
      · exact Or.inr (Or.inl h2)
      · exact Or.inr (Or.inr ⟨q₁, q₂, rfl, h1, h2, hs.trans (suffix_cons d x2), hp⟩)

theorem sufx_getLast? {l r : Line} (h : l <:+ r) (hl : l ≠ []) :
    r.getLast? = l.getLast? := by
  obtain ⟨u, rfl⟩ := h
  rw [List.getLast?_append]
  cases hgl : l.getLast? with
  | none => exact absurd (List.getLast?_eq_none_iff.mp hgl) hl
  | some a => simp

theorem digitCh_isDigit {n : Nat} (h : n < 10) : (digitCh n).isDigit = true := by
  interval_cases n <;> decide

theorem digitCh_inj {m n : Nat} (hm : m < 10) (hn : n < 10)
    (h : digitCh m = digitCh n) : m = n := by
  interval_cases m <;> interval_cases n <;> revert h <;> decide

theorem natDigits_lt_ten {n : Nat} (h : n < 10) : natDigits n = [digitCh n] := by
  rw [natDigits]
  simp [h]

theorem strOfInt_single {k : Int} (h0 : 0 ≤ k) (h9 : k ≤ 9) :
    strOfInt k = [digitCh k.toNat] := by
  rw [strOfInt, if_neg (by omega)]
  exact natDigits_lt_ten (by omega)

theorem strOfInt_single_inj {k t : Int} (hk0 : 0 ≤ k) (hk9 : k ≤ 9)
    (ht0 : 0 ≤ t) (ht9 : t ≤ 9) (h : digitCh k.toNat = digitCh t.toNat) : k = t := by
  have := digitCh_inj (by omega) (by omega) h
  omega

theorem pyReplace_occ_core
    {core : Line} {a b c : Char}
    (hcore : ∀ x ∈ core, x.isDigit = false)
    (hb : b.isDigit = true) (hcb : c ≠ b)
    (s : Line)
    (hs : c = a ∨ ¬ (core ++ [c]) <:+: s) :
    (¬ (core ++ [c]) <:+: pyReplace (core ++ [a]) (core ++ [b]) s) ∧
    (∀ q₁ q₂ : Line, q₁ ≠ [] → q₂ ≠ [] → core ++ [c] = q₁ ++ q₂ →
      q₂ <+: pyReplace (core ++ [a]) (core ++ [b]) s → q₂ <+: s) := by
  have hpat : core ++ [a] ≠ [] := by simp
  match s with
  | [] =>
    rw [pyReplace_nil, if_neg hpat]
    constructor
    · intro h
      simp at h
    · intro q₁ q₂ h1 h2 hsplit hpre
      exact absurd (by simpa using hpre) h2
  | ch :: rest =>
    by_cases hp : (core ++ [a]) <+: ch :: rest
    · obtain ⟨t, ht⟩ := hp
      have heq : pyReplace (core ++ [a]) (core ++ [b]) (ch :: rest) =
          (core ++ [b]) ++ pyReplace (core ++ [a]) (core ++ [b]) t := by
        rw [← ht, pyReplace_append_pos _ hpat t]
      have hst : c = a ∨ ¬ (core ++ [c]) <:+: t := by
        rcases hs with h | h
        · exact Or.inl h
        · exact Or.inr fun hq => h (by rw [← ht]; exact hq.trans (suffix_append _ _).isInfix)
      obtain ⟨IH1, IH2⟩ := pyReplace_occ_core hcore hb hcb t hst
      constructor
      · rw [heq]
        intro hocc
        rcases sub_append_cases hocc with h | h | ⟨q₁, q₂, hsplit, h1, h2, hsfx, hpre⟩
        · have hqe : core ++ [c] = core ++ [b] := h.eq_of_length (by simp)
          exact hcb (by simpa using hqe)
        · exact IH1 h
        · have hgl : q₁.getLast? = some b := by
            rw [← sufx_getLast? hsfx h1, List.getLast?_concat]
          have hbq : b ∈ q₁ := List.mem_of_getLast?_eq_some hgl
          have hdl : core = q₁ ++ q₂.dropLast := by
            have hcongr := congrArg List.dropLast hsplit
            rwa [List.dropLast_concat, List.dropLast_append_of_ne_nil _ h2] at hcongr
          have hbcore : b ∈ core := by
            rw [hdl]; exact List.mem_append_left _ hbq
          have := hcore b hbcore
          rw [hb] at this
          exact absurd this (by simp)
      · rw [heq]
        intro q₁ q₂ h1 h2 hsplit hpre
        have hq2sfx : q₂ <:+ core ++ [c] := ⟨q₁, hsplit.symm⟩
        have hq2last : q₂.getLast? = some c := by
          rw [← sufx_getLast? hq2sfx h2, List.getLast?_concat]
        rcases pre_append_cases hpre with h | ⟨r, hq2, hr⟩
        · by_cases hlen : q₂.length = (core ++ [b]).length
          · have hq2e : q₂ = core ++ [b] := h.eq_of_length hlen
            rw [hq2e, List.getLast?_concat] at hq2last
            exact absurd (by injection hq2last with h3; exact h3.symm) hcb
          · have hle : q₂.length ≤ core.length := by
              have := h.length_le
              simp only [List.length_append, List.length_cons,
                List.length_nil] at this hlen ⊢
              omega
            have hq2core : q₂ <+: core :=
              prefix_of_prefix_length_le h ( prefix_append core [b]) hle
            rw [← ht]
            exact (hq2core.trans ( prefix_append core [a])).trans ( prefix_append _ t)
        · rcases eq_or_ne r [] with rfl | hrne
          · rw [List.append_nil] at hq2
            rw [hq2, List.getLast?_concat] at hq2last
            exact absurd (by injection hq2last with h3; exact h3.symm) hcb
          · have hbq2 : b ∈ q₂.dropLast := by
              rw [hq2, List.dropLast_append_of_ne_nil _ hrne]
              exact List.mem_append_left _ (List.mem_append_right _ (by simp))
            have hdl : core = q₁ ++ q₂.dropLast := by
              have hcongr := congrArg List.dropLast hsplit
              rwa [List.dropLast_concat, List.dropLast_append_of_ne_nil _ h2] at hcongr
            have hbcore : b ∈ core := by
              rw [hdl]; exact List.mem_append_right _ hbq2
            have := hcore b hbcore
            rw [hb] at this
            exact absurd this (by simp)
    · have heq : pyReplace (core ++ [a]) (core ++ [b]) (ch :: rest) =
          ch :: pyReplace (core ++ [a]) (core ++ [b]) rest :=
        pyReplace_cons_neg _ hpat hp
      have hsrest : c = a ∨ ¬ (core ++ [c]) <:+: rest := by
        rcases hs with h | h
        · exact Or.inl h
        · exact Or.inr fun hq => h (hq.trans (suffix_cons ch rest).isInfix)
      obtain ⟨IH1, IH2⟩ := pyReplace_occ_core hcore hb hcb rest hsrest
      have hdispatch : ¬ (core ++ [c]) <+: ch :: rest := by
        rcases hs with h | h
        · subst h; exact hp
        · exact fun hq => h hq.isInfix
      constructor
      · rw [heq]
        intro hocc
        rw [ infix_cons_iff] at hocc
        rcases hocc with hqp | hqi
        · rcases prefix_cons_iff.mp hqp with hq0 | ⟨t2, hqt, ht2⟩
          · simp at hq0
          · rcases eq_or_ne t2 [] with rfl | htne
            · exact hdispatch (by rw [hqt]; exact cons_prefix_cons.mpr ⟨rfl, nil_prefix⟩)
            · have hrest := IH2 [ch] t2 (by simp) htne (by rw [hqt]; rfl) ht2
              exact hdispatch (by rw [hqt]; exact cons_prefix_cons.mpr ⟨rfl, hrest⟩)
        · exact IH1 hqi
      · rw [heq]
        intro q₁ q₂ h1 h2 hsplit hpre
        rcases prefix_cons_iff.mp hpre with hq0 | ⟨t2, hq2t, ht2⟩
        · exact absurd hq0 h2
        · rcases eq_or_ne t2 [] with rfl | htne
          · rw [hq2t]; exact cons_prefix_cons.mpr ⟨rfl, nil_prefix⟩
          · have hrest := IH2 (q₁ ++ [ch]) t2 (by simp) htne
              (by rw [hsplit, hq2t]; simp) ht2
            rw [hq2t]; exact cons_prefix_cons.mpr ⟨rfl, hrest⟩
termination_by s.length
decreasing_by
  · have hlen : (core ++ [a] ++ t).length = (ch :: rest).length := by rw [ht]
    simp only [List.length_append, List.length_cons, List.length_nil] at hlen ⊢
    omega
  · simp

theorem patStr_eq {base : Line} {j : Int} (h0 : 0 ≤ j) (h9 : j ≤ 9) :
    patStr base j = (base ++ [' ']) ++ [digitCh j.toNat] := by
  rw [patStr, strOfInt_single h0 h9]
  simp

theorem patStr_ne_nil (base : Line) (j : Int) : patStr base j ≠ [] := by
  simp [patStr]

theorem core_noDigit {base : Line} (hbase : ∀ x ∈ base, x.isDigit = false) :
    ∀ x ∈ base ++ [' '], x.isDigit = false := by
  intro x hx
  rcases List.mem_append.mp hx with h | h
  · exact hbase x h
  · rw [List.mem_singleton.mp h]
    decide

theorem pyReplace_at_occ {pat : Line} (repl : Line) (hpat : pat ≠ [])
    {u : Line} (hu : ¬ pat <:+: u ++ pat.dropLast) (v : Line) :
    pyReplace pat repl (u ++ pat ++ v) = u ++ repl ++ pyReplace pat repl v := by
  induction u with
  | nil => simpa using pyReplace_append_pos repl hpat v
  | cons d u2 ih =>
    have hpfx2 : (d :: u2) ++ pat.dropLast <+: ((d :: u2) ++ pat) ++ v := by
      rw [List.append_assoc]
      exact ( prefix_append_right_inj (d :: u2)).mpr
        (( dropLast_prefix pat).trans ( prefix_append pat v))
    have hnp : ¬ pat <+: ((d :: u2) ++ pat) ++ v := by
      intro hpfx
      apply hu
      have hle : pat.length ≤ ((d :: u2) ++ pat.dropLast).length := by
        have h1 : 1 ≤ pat.length := by
          cases pat with
          | nil => exact absurd rfl hpat
          | cons p ps => simp
        simp only [List.length_append, List.length_cons, List.length_dropLast]
        omega
      exact (prefix_of_prefix_length_le hpfx hpfx2 hle).isInfix
    have hu2 : ¬ pat <:+: u2 ++ pat.dropLast := by
      intro hq
      exact hu (hq.trans (suffix_cons d (u2 ++ pat.dropLast)).isInfix)
    have hshape : ((d :: u2) ++ pat) ++ v = d :: ((u2 ++ pat) ++ v) := by simp
    rw [hshape] at hnp ⊢
    rw [pyReplace_cons_neg repl hpat hnp, ih hu2]
    simp

theorem sub_digit_cases {core : Line} {dj d : Char}
    (hcore : ∀ x ∈ core, x.isDigit = false)
    (hd : d.isDigit = true) {x y : Line}
    (h : (core ++ [dj]) <:+: x ++ d :: y) :
    (core ++ [dj]) <:+: x ∨ (dj = d ∧ core <:+ x) ∨ (core ++ [dj]) <:+: y := by
  rcases sub_append_cases h with h1 | h1 | ⟨q₁, q₂, hsplit, hn1, hn2, hsfx, hpre⟩
  · exact Or.inl h1
  · rw [ infix_cons_iff] at h1
    rcases h1 with h2 | h2
    · rcases prefix_cons_iff.mp h2 with h3 | ⟨t2, h3, ht2⟩
      · simp at h3
      · cases core with
        | nil =>
          have : dj = d := by
            have := congrArg (fun l => List.head? l) h3
            simpa using this
          exact Or.inr (Or.inl ⟨this, ⟨x, by simp⟩⟩)
        | cons e core2 =>
          have hed : e = d := by
            have := congrArg (fun l => List.head? l) h3
            simpa using this
          have : e.isDigit = false := hcore e (by simp)
          rw [hed, hd] at this
          exact absurd this (by simp)
    · exact Or.inr (Or.inr h2)
  · rcases prefix_cons_iff.mp hpre with h3 | ⟨t2, h3, ht2⟩
    · exact absurd h3 hn2
    · rcases eq_or_ne t2 [] with rfl | htne
      · rw [h3] at hsplit
        obtain ⟨hq1a, hq1b⟩ :=
          List.append_inj' hsplit (by simp : ([dj] : Line).length = [d].length)
        have : dj = d := by simpa using hq1b
        refine Or.inr (Or.inl ⟨this, ?_⟩)
        rw [hq1a]
        exact hsfx
      · have hdmem : d ∈ (core ++ [dj]).dropLast := by
          rw [hsplit, h3]
          cases t2 with
          | nil => exact absurd rfl htne
          | cons e t3 =>
            rw [List.dropLast_append_of_ne_nil _ (by simp)]
            refine List.mem_append_right _ ?_
            rw [List.dropLast_cons₂]
            simp
        rw [List.dropLast_concat] at hdmem
        have := hcore d hdmem
        rw [hd] at this
        exact absurd this (by simp)

theorem mem_rangeList {lo hi j : Int} : j ∈ rangeList lo hi ↔ lo ≤ j ∧ j ≤ hi := by
  simp only [rangeList, List.mem_map, List.mem_range]
  constructor
  · rintro ⟨n, hn, rfl⟩
    omega
  · intro ⟨h1, h2⟩
    exact ⟨(j - lo).toNat, by omega, by omega⟩

theorem no_occ_around {base : Line} (hbase : ∀ x ∈ base, x.isDigit = false)
    {j v : Int} (hj0 : 0 ≤ j) (hj9 : j ≤ 9) (hv0 : 0 ≤ v) (hv9 : v ≤ 9) (hjv : j ≠ v)
    {pre suf : Line}
    (hpre : ¬ patStr base j <:+: pre ++ (base ++ [' ']))
    (hsuf : ¬ patStr base j <:+: suf) :
    ¬ patStr base j <:+: (pre ++ patStr base v) ++ suf := by
  intro h
  rw [patStr_eq hv0 hv9] at h
  have hshape : (pre ++ ((base ++ [' ']) ++ [digitCh v.toNat])) ++ suf
      = (pre ++ (base ++ [' '])) ++ digitCh v.toNat :: suf := by simp
  rw [hshape, patStr_eq hj0 hj9] at h
  rcases sub_digit_cases (core_noDigit hbase)
      (digitCh_isDigit (show v.toNat < 10 by omega)) h with h1 | ⟨h1, _⟩ | h1
  · exact hpre (by rw [patStr_eq hj0 hj9]; exact h1)
  · exact hjv (strOfInt_single_inj hj0 hj9 hv0 hv9 h1)
  · exact hsuf (by rw [patStr_eq hj0 hj9]; exact h1)

theorem fold_no_occ {base : Line} (hbase : ∀ x ∈ base, x.isDigit = false)
    {t : Int} (ht0 : 0 ≤ t) (ht9 : t ≤ 9) (L : List Int) :
    ∀ s : Line, (∀ j ∈ L, 0 ≤ j ∧ j ≤ 9) →
    ((∀ j : Int, 0 ≤ j → j ≤ 9 → j ≠ t → ¬ patStr base j <:+: s →
      ¬ patStr base j <:+:
        L.foldl (fun l i => pyReplace (patStr base i) (patStr base t) l) s) ∧
    (∀ j ∈ L, j ≠ t →
      ¬ patStr base j <:+:
        L.foldl (fun l i => pyReplace (patStr base i) (patStr base t) l) s)) := by
  induction L with
  | nil =>
    intro s _
    exact ⟨fun j _ _ _ h => h, fun j hj => absurd hj (by simp)⟩
  | cons k L2 ih =>
    intro s hL
    obtain ⟨hk0, hk9⟩ := hL k (by simp)
    have hL2 : ∀ j ∈ L2, 0 ≤ j ∧ j ≤ 9 := fun j hj => hL j (by simp [hj])
    have hfold : (k :: L2).foldl (fun l i => pyReplace (patStr base i) (patStr base t) l) s
        = L2.foldl (fun l i => pyReplace (patStr base i) (patStr base t) l)
            (pyReplace (patStr base k) (patStr base t) s) := rfl
    have hstep : ∀ j : Int, 0 ≤ j → j ≤ 9 → j ≠ t → ¬ patStr base j <:+: s →
        ¬ patStr base j <:+: pyReplace (patStr base k) (patStr base t) s := by
      intro j hj0 hj9 hjt hocc
      by_cases hkt : k = t
      · rw [hkt, pyReplace_self]; exact hocc
      · rw [patStr_eq hj0 hj9] at hocc ⊢
        rw [patStr_eq hk0 hk9, patStr_eq ht0 ht9]
        exact (pyReplace_occ_core (core_noDigit hbase)
          (digitCh_isDigit (show t.toNat < 10 by omega))
          (fun h => hjt (strOfInt_single_inj hj0 hj9 ht0 ht9 h))
          s (Or.inr hocc)).1
    have hremove : k ≠ t → ¬ patStr base k <:+: pyReplace (patStr base k) (patStr base t) s := by
      intro hkt
      rw [patStr_eq hk0 hk9, patStr_eq ht0 ht9]
      exact (pyReplace_occ_core (core_noDigit hbase)
        (digitCh_isDigit (show t.toNat < 10 by omega))
        (fun h => hkt (strOfInt_single_inj hk0 hk9 ht0 ht9 h))
        s (Or.inl rfl)).1
    constructor
    · intro j hj0 hj9 hjt hocc
      rw [hfold]
      exact (ih _ hL2).1 j hj0 hj9 hjt (hstep j hj0 hj9 hjt hocc)
    · intro j hj hjt
      rw [hfold]
      rcases List.mem_cons.mp hj with rfl | hj2
      · exact (ih _ hL2).1 j hk0 hk9 hjt (hremove hjt)
      · exact (ih _ hL2).2 j hj2 hjt

theorem fold_id {base : Line} {t : Int} (L : List Int) :
    ∀ s : Line, (∀ j ∈ L, j ≠ t → ¬ patStr base j <:+: s) →
    L.foldl (fun l i => pyReplace (patStr base i) (patStr base t) l) s = s := by
  induction L with
  | nil => intro s _; rfl
  | cons k L2 ih =>
    intro s h
    have hstep : pyReplace (patStr base k) (patStr base t) s = s := by
      by_cases hkt : k = t
      · rw [hkt, pyReplace_self]
      · exact pyReplace_not_occ (patStr_ne_nil base k) s (h k (by simp) hkt)
    show L2.foldl _ (pyReplace (patStr base k) (patStr base t) s) = s
    rw [hstep]
    exact ih s (fun j hj hjt => h j (by simp [hj]) hjt)

theorem processLine_pos {base line : Line} {minV maxV t : Int}
    (hc : containsSub line base = true) :
    processLine base minV maxV t line =
      (rangeList minV maxV).foldl
        (fun l i => pyReplace (patStr base i) (patStr base t) l) line := by
  rw [processLine, if_pos hc]

theorem processLine_neg {base line : Line} {minV maxV t : Int}
    (hc : containsSub line base = false) :
    processLine base minV maxV t line = line := by
  rw [processLine, if_neg (by simp [hc])]

theorem processLine_idem {base : Line} (hbase : ∀ x ∈ base, x.isDigit = false)
    {minV maxV t : Int} (hm0 : 0 ≤ minV) (hm9 : maxV ≤ 9)
    (htmin : minV ≤ t) (htmax : t ≤ maxV) (line : Line) :
    processLine base minV maxV t (processLine base minV maxV t line)
      = processLine base minV maxV t line := by
  cases hc : containsSub line base with
  | false => rw [processLine_neg hc, processLine_neg hc]
  | true =>
    rw [processLine_pos hc]
    by_cases hc2 : containsSub ((rangeList minV maxV).foldl
        (fun l i => pyReplace (patStr base i) (patStr base t) l) line) base = true
    · rw [processLine_pos hc2]
      refine fold_id _ _ ?_
      intro j hj hjt
      exact (fold_no_occ hbase (by omega) (by omega) (rangeList minV maxV) line
        (fun j2 hj2 => by
          have := mem_rangeList.mp hj2
          exact ⟨by omega, by omega⟩)).2 j hj hjt
    · rw [processLine_neg (by simpa using hc2)]

theorem rangeList_nil {lo hi : Int} (h : hi < lo) : rangeList lo hi = [] := by
  rw [rangeList]
  have h0 : (hi + 1 - lo).toNat = 0 := by omega
  rw [h0]
  rfl

theorem rangeList_cons {lo hi : Int} (h : lo ≤ hi) :
    rangeList lo hi = lo :: rangeList (lo + 1) hi := by
  rw [rangeList, rangeList]
  have h1 : (hi + 1 - lo).toNat = (hi + 1 - (lo + 1)).toNat + 1 := by omega
  rw [h1, List.range_succ_eq_map, List.map_cons, List.map_map]
  refine congrArg₂ _ (by simp) ?_
  refine List.map_congr_left ?_
  intro m _
  simp only [Function.comp_apply]
  push_cast
  ring

theorem rangeList_split {lo hi k : Int} (h1 : lo ≤ k) (h2 : k ≤ hi) :
    rangeList lo hi = rangeList lo (k - 1) ++ k :: rangeList (k + 1) hi := by
  rcases eq_or_lt_of_le h1 with rfl | hlt
  · rw [rangeList_cons (show lo ≤ hi by omega),
      rangeList_nil (show lo - 1 < lo by omega)]
    simp
  · rw [rangeList_cons (show lo ≤ hi by omega),
      rangeList_cons (show lo ≤ k - 1 by omega),
      rangeList_split (show lo + 1 ≤ k by omega) h2]
    simp
termination_by (k - lo).toNat
decreasing_by omega

theorem fold_rewrite {base : Line} (hbase : ∀ x ∈ base, x.isDigit = false)
    {minV maxV k t : Int} (hm0 : 0 ≤ minV) (hm9 : maxV ≤ 9)
    (hk1 : minV ≤ k) (hk2 : k ≤ maxV) (ht1 : minV ≤ t) (ht2 : t ≤ maxV)
    {pre suf : Line}
    (hpre : ∀ j : Int, minV ≤ j → j ≤ maxV → ¬ patStr base j <:+: pre ++ (base ++ [' ']))
    (hsuf : ∀ j : Int, minV ≤ j → j ≤ maxV → ¬ patStr base j <:+: suf) :
    (rangeList minV maxV).foldl
      (fun l i => pyReplace (patStr base i) (patStr base t) l)
      ((pre ++ patStr base k) ++ suf) = (pre ++ patStr base t) ++ suf := by
  rw [rangeList_split hk1 hk2, List.foldl_append, List.foldl_cons]
  have hA : (rangeList minV (k - 1)).foldl
      (fun l i => pyReplace (patStr base i) (patStr base t) l)
      ((pre ++ patStr base k) ++ suf) = (pre ++ patStr base k) ++ suf := by
    refine fold_id _ _ ?_
    intro j hj hjt
    obtain ⟨hj1, hj2⟩ := mem_rangeList.mp hj
    exact no_occ_around hbase (by omega) (by omega) (by omega) (by omega)
      (by omega) (hpre j (by omega) (by omega)) (hsuf j (by omega) (by omega))
  rw [hA]
  have hstep : pyReplace (patStr base k) (patStr base t) ((pre ++ patStr base k) ++ suf)
      = (pre ++ patStr base t) ++ suf := by
    by_cases hkt : k = t
    · rw [hkt, pyReplace_self]
    · have hu : ¬ patStr base k <:+: pre ++ (patStr base k).dropLast := by
        rw [patStr_eq (by omega) (by omega), List.dropLast_concat,
          ← patStr_eq (show (0:Int) ≤ k by omega) (show k ≤ 9 by omega)]
        exact hpre k hk1 hk2
      rw [pyReplace_at_occ (patStr base t) (patStr_ne_nil base k) hu suf,
        pyReplace_not_occ (patStr_ne_nil base k) suf (hsuf k hk1 hk2)]
  rw [hstep]
  refine fold_id _ _ ?_
  intro j hj hjt
  obtain ⟨hj1, hj2⟩ := mem_rangeList.mp hj
  exact no_occ_around hbase (by omega) (by omega) (by omega) (by omega) hjt
    (hpre j (by omega) (by omega)) (hsuf j (by omega) (by omega))

theorem processLine_rewrite {base : Line} (hbase : ∀ x ∈ base, x.isDigit = false)
    {minV maxV k t : Int} (hm0 : 0 ≤ minV) (hm9 : maxV ≤ 9)
    (hk1 : minV ≤ k) (hk2 : k ≤ maxV) (ht1 : minV ≤ t) (ht2 : t ≤ maxV)
    {pre suf : Line}
    (hpre : ∀ j : Int, minV ≤ j → j ≤ maxV → ¬ patStr base j <:+: pre ++ (base ++ [' ']))
    (hsuf : ∀ j : Int, minV ≤ j → j ≤ maxV → ¬ patStr base j <:+: suf) :
    processLine base minV maxV t ((pre ++ patStr base k) ++ suf)
      = (pre ++ patStr base t) ++ suf := by
  have hc : containsSub ((pre ++ patStr base k) ++ suf) base = true := by
    rw [containsSub_iff]
    have h1 : base <+: patStr base k := ⟨' ' :: strOfInt k, rfl⟩
    have h2 : patStr base k <:+: (pre ++ patStr base k) ++ suf :=
      infix_append pre (patStr base k) suf
    exact h1.isInfix.trans h2
  rw [processLine_pos hc]
  exact fold_rewrite hbase hm0 hm9 hk1 hk2 ht1 ht2 hpre hsuf

theorem file_line_rep_ok {filedata : List Line} {base : Line} {minV maxV t : Int}
    (h1 : minV ≤ maxV) (h2 : minV ≤ t) (h3 : t ≤ maxV) :
    file_line_rep filedata base minV maxV t
      = .ok (filedata.map (processLine base minV maxV t)) := by
  rw [file_line_rep, if_neg (by omega), if_neg (by omega)]

theorem file_line_rep_err {filedata : List Line} {base : Line} {minV maxV t : Int}
    (h : maxV < minV ∨ t > maxV ∨ t < minV) :
    file_line_rep filedata base minV maxV t = .error () := by
  by_cases h1 : maxV < minV
  · rw [file_line_rep, if_pos h1]
  · have h2 : t > maxV ∨ t < minV := by
      rcases h with h | h
      · exact absurd h h1
      · exact h
    rw [file_line_rep, if_neg h1, if_pos h2]

theorem storeRewrite_wrote {base : Line} {minV maxV v : Int} {file : List Line}
    (h1 : minV ≤ maxV) (h2 : minV ≤ v) (h3 : v ≤ maxV) :
    storeRewrite base minV maxV v file
      = .wrote (file.map (processLine base minV maxV v)) := by
  simp [storeRewrite, file_line_rep_ok h1 h2 h3]

theorem storeRewrite_raised {base : Line} {minV maxV v : Int} {file : List Line}
    (h : maxV < minV ∨ v > maxV ∨ v < minV) :
    storeRewrite base minV maxV v file = .raised file := by
  simp [storeRewrite, file_line_rep_err h]

theorem allSpecs_good : ∀ ms ∈ allSpecs,
    (∀ x ∈ ms.name, x.isDigit = false) ∧
    0 ≤ ms.minVal ∧ ms.maxVal ≤ 9 ∧ ms.minVal ≤ ms.maxVal := by
  decide

theorem natDigits_ne_nil (n : Nat) : natDigits n ≠ [] := by
  rw [natDigits]
  split <;> simp

theorem natDigits_digits (n : Nat) : ∀ c ∈ natDigits n, c.isDigit = true := by
  intro c hc
  rw [natDigits] at hc
  by_cases h : n < 10
  · rw [if_pos h] at hc
    rw [List.mem_singleton.mp hc]
    exact digitCh_isDigit h
  · rw [if_neg h] at hc
    rcases List.mem_append.mp hc with h2 | h2
    · exact natDigits_digits (n / 10) c h2
    · rw [List.mem_singleton.mp h2]
      exact digitCh_isDigit (Nat.mod_lt _ (by omega))
termination_by n
decreasing_by omega

theorem digitCh_toNat {m : Nat} (h : m < 10) : (digitCh m).toNat = 48 + m := by
  interval_cases m <;> decide

theorem digitsVal_append (l : Line) (c : Char) :
    digitsVal (l ++ [c]) = digitsVal l * 10 + (c.toNat - 48) := by
  simp [digitsVal, List.foldl_append]

theorem digitsVal_natDigits (n : Nat) : digitsVal (natDigits n) = n := by
  rw [natDigits]
  by_cases h : n < 10
  · rw [if_pos h]
    have := digitCh_toNat h
    simp [digitsVal, this]
  · rw [if_neg h, digitsVal_append, digitsVal_natDigits (n / 10),
      digitCh_toNat (Nat.mod_lt _ (by omega))]
    omega
termination_by n
decreasing_by omega

theorem digit_not_ws {c : Char} (h : c.isDigit = true) : c.isWhitespace = false := by
  by_contra h2
  rw [Bool.not_eq_false] at h2
  simp only [Char.isWhitespace, Bool.or_eq_true, decide_eq_true_eq] at h2
  have hs : c ≠ ' ' := fun hc => absurd (hc ▸ h) (by decide)
  have ht : c ≠ '\t' := fun hc => absurd (hc ▸ h) (by decide)
  have hr : c ≠ '\r' := fun hc => absurd (hc ▸ h) (by decide)
  have hn : c ≠ '\n' := fun hc => absurd (hc ▸ h) (by decide)
  tauto

theorem digit_ne_sign {c : Char} (h : c.isDigit = true) : c ≠ '-' ∧ c ≠ '+' := by
  constructor <;> (rintro rfl; exact absurd h (by decide))

theorem dropWhile_id {p : Char → Bool} {l : Line} (h : ∀ c ∈ l, p c = false) :
    l.dropWhile p = l := by
  cases l with
  | nil => rfl
  | cons c rest =>
    rw [List.dropWhile_cons, if_neg]
    simp [h c (by simp)]

theorem pyInt_strOfInt {i : Int} (h : 0 ≤ i) : pyInt (strOfInt i) = some i := by
  rw [strOfInt, if_neg (by omega)]
  have hds := natDigits_digits i.toNat
  have hws : ∀ c ∈ natDigits i.toNat, c.isWhitespace = false :=
    fun c hc => digit_not_ws (hds c hc)
  have ht1 : (natDigits i.toNat).dropWhile Char.isWhitespace = natDigits i.toNat :=
    dropWhile_id hws
  have ht2 : ((natDigits i.toNat).reverse).dropWhile Char.isWhitespace
      = (natDigits i.toNat).reverse :=
    dropWhile_id (fun c hc => hws c (List.mem_reverse.mp hc))
  have hhead : ∀ x, (natDigits i.toNat).head? = some x → x.isDigit = true := by
    intro x hx
    exact hds x (List.mem_of_mem_head? hx)
  have hsign : ((natDigits i.toNat).head? = some '-') = False := by
    simp only [eq_iff_iff, iff_false]
    intro hx
    exact absurd (hhead _ hx) (by decide)
  have hplus : ((natDigits i.toNat).head? = some '+') = False := by
    simp only [eq_iff_iff, iff_false]
    intro hx
    exact absurd (hhead _ hx) (by decide)
  simp only [pyInt, ht1, ht2, List.reverse_reverse, hsign, hplus, if_false,
    or_self, ite_false]
  rw [if_pos ⟨natDigits_ne_nil _, by
    rw [List.all_eq_true]
    intro c hc
    simpa using hds c hc⟩]
  rw [digitsVal_natDigits]
  simp
  omega

theorem getoptLoop_nil (opts : List OptPair) :
    getoptLoop opts [] shortoptsArg longoptsArg = .ok (opts, []) := by
  rw [getoptLoop]

theorem getoptLoop_step_short {c : Char} (hne : c ≠ '-')
    (hc : shortHasArg c shortoptsArg = .ok true)
    (opts : List OptPair) (v : Line) (rest : List Line) :
    getoptLoop opts (['-', c] :: v :: rest) shortoptsArg longoptsArg
      = getoptLoop (opts ++ [(['-', c], v)]) rest shortoptsArg longoptsArg := by
  rw [getoptLoop]
  simp [hne, do_shorts, hc]

theorem getoptLoop_step_short_noarg {c : Char} (hne : c ≠ '-')
    (hc : shortHasArg c shortoptsArg = .ok false)
    (opts : List OptPair) (rest : List Line) :
    getoptLoop opts (['-', c] :: rest) shortoptsArg longoptsArg
      = getoptLoop (opts ++ [(['-', c], [])]) rest shortoptsArg longoptsArg := by
  rw [getoptLoop]
  simp [hne, do_shorts, hc]

theorem getoptLoop_short_err {c : Char} (hne : c ≠ '-')
    (hc : shortHasArg c shortoptsArg = .error ())
    (opts : List OptPair) (rest : List Line) :
    getoptLoop opts (['-', c] :: rest) shortoptsArg longoptsArg = .error () := by
  rw [getoptLoop]
  simp [hne, do_shorts, hc]

theorem getoptLoop_short_missing_arg {c : Char} (hne : c ≠ '-')
    (hc : shortHasArg c shortoptsArg = .ok true)
    (opts : List OptPair) :
    getoptLoop opts [['-', c]] shortoptsArg longoptsArg = .error () := by
  rw [getoptLoop]
  simp [hne, do_shorts, hc]

theorem mainRun_parse_ok {argv : List Line} {opts : List OptPair} {rest : List Line}
    (hp : getoptM argv = .ok (opts, rest)) {vals : OptVals}
    (hv : procOpts opts initVals = .ok vals) (file : List Line) :
    mainRun argv file = checkAndRun vals file := by
  simp only [mainRun, hp, hv]

theorem mainRun_parse_exit {argv : List Line} {opts : List OptPair} {rest : List Line}
    (hp : getoptM argv = .ok (opts, rest)) {o : Outcome}
    (hv : procOpts opts initVals = .error o) (file : List Line) :
    mainRun argv file = ⟨o, file, []⟩ := by
  simp only [mainRun, hp, hv]

theorem mainRun_usage {argv : List Line} (hp : getoptM argv = .error ())
    (file : List Line) :
    mainRun argv file = ⟨.usageExit2, file, []⟩ := by
  simp only [mainRun, hp]

theorem runRewrites_all_ok {i n m s d : Int}
    (hi1 : 0 ≤ i) (hi2 : i ≤ 2) (hn1 : 0 ≤ n) (hn2 : n ≤ 3)
    (hm1 : 0 ≤ m) (hm2 : m ≤ 4) (hs1 : 0 ≤ s) (hs2 : s ≤ 2)
    (hd1 : 0 ≤ d) (hd2 : d ≤ 2) (file : List Line) :
    runRewrites ⟨i, n, m, s, d⟩ file =
      ⟨.done,
       ((((file.map (processLine ifftName 0 2 i)).map
            (processLine nttName 0 3 n)).map
           (processLine indexMapName 0 4 m)).map
          (processLine skName 0 2 s)).map (processLine dataLoadName 0 2 d),
       [(ifftName, i), (nttName, n), (indexMapName, m), (skName, s),
        (dataLoadName, d)]⟩ := by
  have e1 : set_ifft_define i file
      = .wrote (file.map (processLine ifftName 0 2 i)) := by
    rw [set_ifft_define, storeRewrite_wrote (by decide) hi1 hi2]
  have e2 : set_ntt_define n (file.map (processLine ifftName 0 2 i))
      = .wrote ((file.map (processLine ifftName 0 2 i)).map (processLine nttName 0 3 n)) := by
    rw [set_ntt_define, storeRewrite_wrote (by decide) hn1 hn2]
  have e3 : set_index_map_define m
      ((file.map (processLine ifftName 0 2 i)).map (processLine nttName 0 3 n))
      = .wrote (((file.map (processLine ifftName 0 2 i)).map
          (processLine nttName 0 3 n)).map (processLine indexMapName 0 4 m)) := by
    rw [set_index_map_define, storeRewrite_wrote (by decide) hm1 hm2]
  have e4 : set_sk_define s
      (((file.map (processLine ifftName 0 2 i)).map
          (processLine nttName 0 3 n)).map (processLine indexMapName 0 4 m))
      = .wrote ((((file.map (processLine ifftName 0 2 i)).map
          (processLine nttName 0 3 n)).map (processLine indexMapName 0 4 m)).map
            (processLine skName 0 2 s)) := by
    rw [set_sk_define, storeRewrite_wrote (by decide) hs1 hs2]
  have e5 : set_data_load_define d
      ((((file.map (processLine ifftName 0 2 i)).map
          (processLine nttName 0 3 n)).map (processLine indexMapName 0 4 m)).map
            (processLine skName 0 2 s))
      = .wrote (((((file.map (processLine ifftName 0 2 i)).map
          (processLine nttName 0 3 n)).map (processLine indexMapName 0 4 m)).map
            (processLine skName 0 2 s)).map (processLine dataLoadName 0 2 d)) := by
    rw [set_data_load_define, storeRewrite_wrote (by decide) hd1 hd2]
  simp only [runRewrites, e1, e2, e3, e4, e5]

theorem runRewrites_ifft_abort {i : Int} (h : i > 2 ∨ i < 0)
    (n m s d : Int) (file : List Line) :
    runRewrites ⟨i, n, m, s, d⟩ file = ⟨.rangeAbort, file, [(ifftName, i)]⟩ := by
  have e1 : set_ifft_define i file = .raised file := by
    rw [set_ifft_define, storeRewrite_raised (Or.inr h)]
  simp only [runRewrites, e1]

theorem checkAndRun_all_set {vals : OptVals} (hi : 0 ≤ vals.ifft) (hn : 0 ≤ vals.ntt)
    (hm : 0 ≤ vals.index_map) (hs : 0 ≤ vals.sk) (hd : 0 ≤ vals.data_load)
    (file : List Line) :
    checkAndRun vals file = runRewrites vals file := by
  rw [checkAndRun, if_neg (by omega), if_neg (by omega), if_neg (by omega),
    if_neg (by omega), if_neg (by omega)]

theorem getoptM_canonical (vi vn vm vs vd : Line) :
    getoptM [strChars "-i", vi, strChars "-n", vn, strChars "-m", vm,
             strChars "-s", vs, strChars "-d", vd]
      = .ok ([(['-', 'i'], vi), (['-', 'n'], vn), (['-', 'm'], vm),
              (['-', 's'], vs), (['-', 'd'], vd)], []) := by
  rw [getoptM,
    show strChars "-i" = ['-', 'i'] from rfl,
    show strChars "-n" = ['-', 'n'] from rfl,
    show strChars "-m" = ['-', 'm'] from rfl,
    show strChars "-s" = ['-', 's'] from rfl,
    show strChars "-d" = ['-', 'd'] from rfl,
    @getoptLoop_step_short 'i' (by decide) rfl,
    @getoptLoop_step_short 'n' (by decide) rfl,
    @getoptLoop_step_short 'm' (by decide) rfl,
    @getoptLoop_step_short 's' (by decide) rfl,
    @getoptLoop_step_short 'd' (by decide) rfl,
    getoptLoop_nil]
  rfl

theorem procOpts_canonical {i n m s d : Int}
    (hi : 0 ≤ i) (hn : 0 ≤ n) (hm : 0 ≤ m) (hs : 0 ≤ s) (hd : 0 ≤ d) :
    procOpts [(['-', 'i'], strOfInt i), (['-', 'n'], strOfInt n),
              (['-', 'm'], strOfInt m), (['-', 's'], strOfInt s),
              (['-', 'd'], strOfInt d)] initVals
      = .ok ⟨i, n, m, s, d⟩ := by
  simp [procOpts, strChars, pyInt_strOfInt, hi, hn, hm, hs, hd, initVals]

/-! Theorems settling the specification's claims. -/

/-- C1: for every input line sequence, macro name, range `[min, max]`
with `min ≤ max` and target in `[min, max]`, `file_line_rep` returns
exactly the sequence described by the spec: every line containing the
macro name has every occurrence of `"<name> <k>"`, for each `k` from
min to max in increasing order (each replacement applied to the
cumulative result of the prior ones on that line), replaced by
`"<name> <target>"`, and every line not containing the macro name is
copied unchanged (`specRewrite`). -/
theorem claim_C1_rewrite_meets_spec (filedata : List Line) (base : Line)
    (minV maxV target : Int)
    (h1 : minV ≤ maxV) (h2 : minV ≤ target) (h3 : target ≤ maxV) :
    file_line_rep filedata base minV maxV target
      = .ok (specRewrite filedata ⟨base, minV, maxV⟩ target) := by
  rw [file_line_rep_ok h1 h2 h3]
  rfl

theorem claim_C1_witness :
    file_line_rep [strChars "#define SE_IFFT_TYPE 0"] ifftName 0 2 2
      = .ok (specRewrite [strChars "#define SE_IFFT_TYPE 0"] ⟨ifftName, 0, 2⟩ 2) :=
  claim_C1_rewrite_meets_spec _ _ _ _ _ (by decide) (by decide) (by decide)

/-- C9: for every input line sequence (with a valid range and in-range
target), `file_line_rep` returns a sequence with exactly as many lines
as its input, in the same order: the line at each index of the output
is the processed form of the line at the same index of the input. -/
theorem claim_C9_line_count_preserved (filedata : List Line) (base : Line)
    (minV maxV t : Int) (h1 : minV ≤ maxV) (h2 : minV ≤ t) (h3 : t ≤ maxV) :
    ∃ out, file_line_rep filedata base minV maxV t = .ok out ∧
      out.length = filedata.length ∧
      ∀ i : Nat, out[i]? = (filedata[i]?).map (processLine base minV maxV t) := by
  refine ⟨_, file_line_rep_ok h1 h2 h3, by simp, fun i => by simp⟩

theorem claim_C9_witness :
    ∃ out, file_line_rep [strChars "a", strChars "b"] ifftName 0 2 1 = .ok out ∧
      out.length = 2 ∧
      ∀ i : Nat, out[i]? =
        (([strChars "a", strChars "b"][i]?).map (processLine ifftName 0 2 1)) := by
  obtain ⟨out, ha, hb, hc⟩ := claim_C9_line_count_preserved
    [strChars "a", strChars "b"] ifftName 0 2 1 (by decide) (by decide) (by decide)
  exact ⟨out, ha, by simpa using hb, hc⟩

/-- C3: for every macro name and range, every target outside the
declared `[min, max]` — and likewise whenever `min > max` — the rewrite
raises (`file_line_rep` returns an error) before producing any new
content, and the read-modify-write pass leaves the file exactly as it
was: no partial edit is attempted. -/
theorem claim_C3_out_of_range_raises (base : Line) (minV maxV v : Int)
    (file : List Line) (h : maxV < minV ∨ v > maxV ∨ v < minV) :
    file_line_rep file base minV maxV v = .error () ∧
    storeRewrite base minV maxV v file = .raised file :=
  ⟨file_line_rep_err h, storeRewrite_raised h⟩

theorem claim_C3_witness :
    file_line_rep [strChars "#define SE_IFFT_TYPE 0"] ifftName 0 2 5 = .error () ∧
    storeRewrite ifftName 0 2 5 [strChars "#define SE_IFFT_TYPE 0"]
      = .raised [strChars "#define SE_IFFT_TYPE 0"] :=
  claim_C3_out_of_range_raises _ _ _ _ _ (by decide)

/-- C10: a line that contains the macro name but no occurrence of
`"<name> <k>"` for any `k` in `[min, max]` — for example because the
integer following the name is outside the declared range — is returned
unchanged by `file_line_rep` at its index: existing out-of-range values
are never rewritten to the target. -/
theorem claim_C10_no_match_line_unchanged (filedata : List Line) (base : Line)
    (minV maxV t : Int) (h1 : minV ≤ maxV) (h2 : minV ≤ t) (h3 : t ≤ maxV)
    (out : List Line) (hout : file_line_rep filedata base minV maxV t = .ok out)
    (i : Nat) (line : Line) (hline : filedata[i]? = some line)
    (_hname : containsSub line base = true)
    (hnone : ∀ k ∈ rangeList minV maxV, containsSub line (patStr base k) = false) :
    out[i]? = some line := by
  rw [file_line_rep_ok h1 h2 h3] at hout
  injection hout with h4
  subst h4
  rw [List.getElem?_map, hline]
  have hfix : processLine base minV maxV t line = line := by
    by_cases hc : containsSub line base = true
    · rw [processLine_pos hc]
      refine fold_id _ _ ?_
      intro j hj _ hocc
      have h5 := containsSub_iff.mpr hocc
      rw [hnone j hj] at h5
      exact Bool.false_ne_true h5
    · rw [processLine_neg (by simpa using hc)]
  rw [Option.map_some', hfix]

theorem claim_C10_witness :
    ([strChars "#define SE_IFFT_TYPE 9"].map (processLine ifftName 0 2 1))[0]?
      = some (strChars "#define SE_IFFT_TYPE 9") := by
  refine claim_C10_no_match_line_unchanged [strChars "#define SE_IFFT_TYPE 9"]
    ifftName 0 2 1 (by decide) (by decide) (by decide) _
    (file_line_rep_ok (by decide) (by decide) (by decide)) 0 _ rfl (by decide) ?_
  intro k hk
  rw [show rangeList 0 2 = [(0 : Int), 1, 2] by decide] at hk
  fin_cases hk <;> (rw [patStr_eq (by decide) (by decide)]; decide)

/-- C6: for each of the five macros and any in-range target `t`,
`file_line_rep` is idempotent: applying it a second time with the same
macro name, range and target to its own output returns that output
unchanged — a file already rewritten to `"<name> <t>"` is left
byte-identical. -/
theorem claim_C6_rewrite_idempotent (ms : MacroSpec) (hms : ms ∈ allSpecs)
    (t : Int) (h2 : ms.minVal ≤ t) (h3 : t ≤ ms.maxVal) (file out : List Line)
    (hout : file_line_rep file ms.name ms.minVal ms.maxVal t = .ok out) :
    file_line_rep out ms.name ms.minVal ms.maxVal t = .ok out := by
  obtain ⟨hname, hm0, hm9, hmm⟩ := allSpecs_good ms hms
  rw [file_line_rep_ok hmm h2 h3] at hout
  injection hout with h4
  subst h4
  rw [file_line_rep_ok hmm h2 h3]
  congr 1
  rw [List.map_map]
  refine List.map_congr_left ?_
  intro line _
  simp only [Function.comp_apply]
  exact processLine_idem hname hm0 hm9 h2 h3 line

theorem claim_C6_witness :
    file_line_rep [] ifftName 0 2 1 = .ok [] :=
  claim_C6_rewrite_idempotent ifftSpec (by decide) 1 (by decide) (by decide) [] []
    (by rw [file_line_rep_ok (by decide) (by decide) (by decide)]; rfl)

/-- C2: for each of the five macros, on a line of the consumed file of
the form `<pre>` + `"<name> <k>"` + `<suf>` (with `k` in the declared
range, and `pre`/`suf` containing no further pattern occurrence), only
the integer token immediately following the macro name and a single
space is replaced; every other character of the line — including
unrelated tokens and any digits following the matched one, as in the
`"3"` of `"#define SE_IFFT_TYPE 23"` — is carried over unchanged. -/
theorem claim_C2_only_token_replaced (ms : MacroSpec) (hms : ms ∈ allSpecs)
    (k t : Int) (hk1 : ms.minVal ≤ k) (hk2 : k ≤ ms.maxVal)
    (ht1 : ms.minVal ≤ t) (ht2 : t ≤ ms.maxVal)
    (pre suf : Line)
    (hpre : ∀ j : Int, ms.minVal ≤ j → j ≤ ms.maxVal →
      containsSub (pre ++ (ms.name ++ [' '])) (patStr ms.name j) = false)
    (hsuf : ∀ j : Int, ms.minVal ≤ j → j ≤ ms.maxVal →
      containsSub suf (patStr ms.name j) = false)
    (filedata out : List Line) (i : Nat)
    (hout : file_line_rep filedata ms.name ms.minVal ms.maxVal t = .ok out)
    (hline : filedata[i]? = some ((pre ++ patStr ms.name k) ++ suf)) :
    out[i]? = some ((pre ++ patStr ms.name t) ++ suf) := by
  obtain ⟨hname, hm0, hm9, _⟩ := allSpecs_good ms hms
  rw [file_line_rep_ok (by omega) ht1 ht2] at hout
  injection hout with h4
  subst h4
  rw [List.getElem?_map, hline, Option.map_some']
  have hpre2 : ∀ j : Int, ms.minVal ≤ j → j ≤ ms.maxVal →
      ¬ patStr ms.name j <:+: pre ++ (ms.name ++ [' ']) := by
    intro j hj1 hj2 hocc
    have h5 := containsSub_iff.mpr hocc
    rw [hpre j hj1 hj2] at h5
    exact Bool.false_ne_true h5
  have hsuf2 : ∀ j : Int, ms.minVal ≤ j → j ≤ ms.maxVal →
      ¬ patStr ms.name j <:+: suf := by
    intro j hj1 hj2 hocc
    have h5 := containsSub_iff.mpr hocc
    rw [hsuf j hj1 hj2] at h5
    exact Bool.false_ne_true h5
  rw [processLine_rewrite hname hm0 hm9 hk1 hk2 ht1 ht2 hpre2 hsuf2]

theorem claim_C2_witness :
    ([strChars "#define SE_IFFT_TYPE 23"].map (processLine ifftName 0 2 1))[0]?
      = some (strChars "#define SE_IFFT_TYPE 13") := by
  have hpre : ∀ j : Int, (0 : Int) ≤ j → j ≤ 2 →
      containsSub (([] : Line) ++ (ifftName ++ [' '])) (patStr ifftName j) = false := by
    intro j h1 h2
    interval_cases j <;> (rw [patStr_eq (by decide) (by decide)]; decide)
  have hsuf : ∀ j : Int, (0 : Int) ≤ j → j ≤ 2 →
      containsSub (['3'] : Line) (patStr ifftName j) = false := by
    intro j h1 h2
    interval_cases j <;> (rw [patStr_eq (by decide) (by decide)]; decide)
  have hline : ([strChars "#define SE_IFFT_TYPE 23"] : List Line)[0]?
      = some ((([] : Line) ++ patStr ifftName 2) ++ ['3']) := by
    rw [patStr_eq (by decide) (by decide)]
    decide
  have h := claim_C2_only_token_replaced ifftSpec (by decide) 2 1 (by decide) (by decide)
    (by decide) (by decide) [] ['3'] hpre hsuf
    [strChars "#define SE_IFFT_TYPE 23"] _ 0
    (file_line_rep_ok (by decide) (by decide) (by decide)) hline
  simp only [ifftSpec] at h
  rw [h, patStr_eq (by decide) (by decide)]
  decide

/-- C7: when all five options are supplied with valid in-range values,
the driver invokes the Define Rewriter exactly once per macro, strictly
sequentially, in the fixed order ifft, ntt, index_map, sk, data_load —
each invocation independently re-reading the same file (the result of
the previous pass) and writing it back — and then exits successfully. -/
theorem claim_C7_success_runs_five (i n m s d : Int)
    (hi1 : 0 ≤ i) (hi2 : i ≤ 2) (hn1 : 0 ≤ n) (hn2 : n ≤ 3)
    (hm1 : 0 ≤ m) (hm2 : m ≤ 4) (hs1 : 0 ≤ s) (hs2 : s ≤ 2)
    (hd1 : 0 ≤ d) (hd2 : d ≤ 2) (file : List Line) :
    mainRun [strChars "-i", strOfInt i, strChars "-n", strOfInt n,
             strChars "-m", strOfInt m, strChars "-s", strOfInt s,
             strChars "-d", strOfInt d] file
      = ⟨.done,
         ((((file.map (processLine ifftName 0 2 i)).map
              (processLine nttName 0 3 n)).map
             (processLine indexMapName 0 4 m)).map
            (processLine skName 0 2 s)).map (processLine dataLoadName 0 2 d),
         [(ifftName, i), (nttName, n), (indexMapName, m), (skName, s),
          (dataLoadName, d)]⟩ := by
  rw [mainRun_parse_ok (getoptM_canonical _ _ _ _ _)
      (procOpts_canonical hi1 hn1 hm1 hs1 hd1),
    checkAndRun_all_set hi1 hn1 hm1 hs1 hd1,
    runRewrites_all_ok hi1 hi2 hn1 hn2 hm1 hm2 hs1 hs2 hd1 hd2]

theorem claim_C7_witness :
    mainRun [strChars "-i", strOfInt 2, strChars "-n", strOfInt 3,
             strChars "-m", strOfInt 0, strChars "-s", strOfInt 0,
             strChars "-d", strOfInt 0] []
      = ⟨.done, [],
         [(ifftName, 2), (nttName, 3), (indexMapName, 0), (skName, 0),
          (dataLoadName, 0)]⟩ := by
  have h := claim_C7_success_runs_five 2 3 0 0 0 (by decide) (by decide) (by decide)
    (by decide) (by decide) (by decide) (by decide) (by decide) (by decide)
    (by decide) []
  simpa using h

/-- C4 (counterexample to the claim as stated): invoking the driver with
`-i 5` and all other options valid aborts with a range error at the very
first (ifft) rewrite step, so the ifft and ntt lines have NOT "already
been rewritten" when the error occurs — the file is returned exactly as
it was, and the only rewriter invocation is the failing ifft one. -/
theorem claim_C4_counterexample :
    mainRun [strChars "-i", strChars "5", strChars "-n", strChars "0",
             strChars "-m", strChars "0", strChars "-s", strChars "0",
             strChars "-d", strChars "0"]
        [strChars "#define SE_IFFT_TYPE 0", strChars "#define SE_NTT_TYPE 1"]
      = ⟨.rangeAbort,
         [strChars "#define SE_IFFT_TYPE 0", strChars "#define SE_NTT_TYPE 1"],
         [(ifftName, 5)]⟩ := by
  have hv : procOpts [(['-', 'i'], strChars "5"), (['-', 'n'], strChars "0"),
      (['-', 'm'], strChars "0"), (['-', 's'], strChars "0"),
      (['-', 'd'], strChars "0")] initVals = .ok ⟨5, 0, 0, 0, 0⟩ := by rfl
  rw [mainRun_parse_ok (getoptM_canonical _ _ _ _ _) hv,
    checkAndRun_all_set (by decide) (by decide) (by decide) (by decide) (by decide),
    runRewrites_ifft_abort (Or.inl (by decide))]

/-- C4 (amended): invoking the driver with `-i 5` (outside the ifft
macro's declared range 0–2) and all other options valid in range aborts
with a range error at the first (ifft) rewrite step, before any change
is written: no macro line is rewritten, the file is unmodified, and the
failing ifft invocation is the only rewriter invocation made. -/
theorem claim_C4_amended_first_step_aborts (n m s d : Int)
    (hn1 : 0 ≤ n) (_hn2 : n ≤ 3) (hm1 : 0 ≤ m) (_hm2 : m ≤ 4)
    (hs1 : 0 ≤ s) (_hs2 : s ≤ 2) (hd1 : 0 ≤ d) (_hd2 : d ≤ 2)
    (file : List Line) :
    mainRun [strChars "-i", strOfInt 5, strChars "-n", strOfInt n,
             strChars "-m", strOfInt m, strChars "-s", strOfInt s,
             strChars "-d", strOfInt d] file
      = ⟨.rangeAbort, file, [(ifftName, 5)]⟩ := by
  rw [mainRun_parse_ok (getoptM_canonical _ _ _ _ _)
      (procOpts_canonical (show (0 : Int) ≤ 5 by decide) hn1 hm1 hs1 hd1),
    checkAndRun_all_set (show (0 : Int) ≤ 5 by decide) hn1 hm1 hs1 hd1,
    runRewrites_ifft_abort (Or.inl (show (5 : Int) > 2 by decide))]

theorem claim_C4_amended_witness :
    mainRun [strChars "-i", strOfInt 5, strChars "-n", strOfInt 0,
             strChars "-m", strOfInt 0, strChars "-s", strOfInt 0,
             strChars "-d", strOfInt 0] [strChars "#define SE_IFFT_TYPE 0"]
      = ⟨.rangeAbort, [strChars "#define SE_IFFT_TYPE 0"], [(ifftName, 5)]⟩ :=
  claim_C4_amended_first_step_aborts 0 0 0 0 (by decide) (by decide) (by decide)
    (by decide) (by decide) (by decide) (by decide) (by decide)
    [strChars "#define SE_IFFT_TYPE 0"]

/-- C5 (counterexample to the claim as stated): the command line
`["-h"]` supplies none of the five options, yet the driver prints the
usage text and exits via the help path instead of printing the
ifft "Need to choose" message — no missing-option message is produced
at all. -/
theorem claim_C5_counterexample :
    mainRun [strChars "-h"] [strChars "#define SE_IFFT_TYPE 0"]
        = ⟨.helpExit0, [strChars "#define SE_IFFT_TYPE 0"], []⟩ ∧
    ¬ ∃ msg : String,
        (mainRun [strChars "-h"] [strChars "#define SE_IFFT_TYPE 0"]).outcome
          = .missingOpt msg := by
  have hg : getoptM [strChars "-h"] = .ok ([(['-', 'h'], [])], []) := by
    rw [getoptM, show strChars "-h" = ['-', 'h'] from rfl,
      @getoptLoop_step_short_noarg 'h' (by decide) rfl, getoptLoop_nil]
    rfl
  have hv : procOpts [(['-', 'h'], [])] initVals = .error .helpExit0 := by rfl
  have hmain := mainRun_parse_exit hg hv [strChars "#define SE_IFFT_TYPE 0"]
  refine ⟨hmain, ?_⟩
  rintro ⟨msg, hmsg⟩
  rw [hmain] at hmsg
  exact Outcome.noConfusion hmsg

/-- C5 (amended): for every run that gets past option parsing without
the help flag and without an `int()` failure — equivalently, for every
post-parse value assignment — if at least one of the five values is
still negative, the driver prints the "Need to choose" message of the
first such option in the fixed check order ifft, ntt, index_map, sk,
data_load and exits without invoking the rewriter, leaving the file
unmodified; in particular a command line omitting `-s` with the other
four options valid produces the sk message and leaves the file
untouched. -/
theorem claim_C5_amended_first_missing_halts :
    (∀ (vals : OptVals) (file : List Line),
      (vals.ifft < 0 →
        checkAndRun vals file = ⟨.missingOpt ifftMissingMsg, file, []⟩) ∧
      (0 ≤ vals.ifft → vals.ntt < 0 →
        checkAndRun vals file = ⟨.missingOpt nttMissingMsg, file, []⟩) ∧
      (0 ≤ vals.ifft → 0 ≤ vals.ntt → vals.index_map < 0 →
        checkAndRun vals file = ⟨.missingOpt indexMapMissingMsg, file, []⟩) ∧
      (0 ≤ vals.ifft → 0 ≤ vals.ntt → 0 ≤ vals.index_map → vals.sk < 0 →
        checkAndRun vals file = ⟨.missingOpt skMissingMsg, file, []⟩) ∧
      (0 ≤ vals.ifft → 0 ≤ vals.ntt → 0 ≤ vals.index_map → 0 ≤ vals.sk →
        vals.data_load < 0 →
        checkAndRun vals file = ⟨.missingOpt dataLoadMissingMsg, file, []⟩)) ∧
    (∀ file : List Line,
      mainRun [strChars "-i", strChars "2", strChars "-n", strChars "3",
               strChars "-m", strChars "0", strChars "-d", strChars "0"] file
        = ⟨.missingOpt skMissingMsg, file, []⟩) := by
  constructor
  · intro vals file
    refine ⟨?_, ?_, ?_, ?_, ?_⟩
    · intro h1
      rw [checkAndRun, if_pos h1]
    · intro h1 h2
      rw [checkAndRun, if_neg (by omega), if_pos h2]
    · intro h1 h2 h3
      rw [checkAndRun, if_neg (by omega), if_neg (by omega), if_pos h3]
    · intro h1 h2 h3 h4
      rw [checkAndRun, if_neg (by omega), if_neg (by omega), if_neg (by omega),
        if_pos h4]
    · intro h1 h2 h3 h4 h5
      rw [checkAndRun, if_neg (by omega), if_neg (by omega), if_neg (by omega),
        if_neg (by omega), if_pos h5]
  · intro file
    have hg : getoptM [strChars "-i", strChars "2", strChars "-n", strChars "3",
        strChars "-m", strChars "0", strChars "-d", strChars "0"]
        = .ok ([(['-', 'i'], strChars "2"), (['-', 'n'], strChars "3"),
                (['-', 'm'], strChars "0"), (['-', 'd'], strChars "0")], []) := by
      rw [getoptM, show strChars "-i" = ['-', 'i'] from rfl,
        show strChars "-n" = ['-', 'n'] from rfl,
        show strChars "-m" = ['-', 'm'] from rfl,
        show strChars "-d" = ['-', 'd'] from rfl,
        @getoptLoop_step_short 'i' (by decide) rfl,
        @getoptLoop_step_short 'n' (by decide) rfl,
        @getoptLoop_step_short 'm' (by decide) rfl,
        @getoptLoop_step_short 'd' (by decide) rfl,
        getoptLoop_nil]
      rfl
    have hv : procOpts [(['-', 'i'], strChars "2"), (['-', 'n'], strChars "3"),
        (['-', 'm'], strChars "0"), (['-', 'd'], strChars "0")] initVals
        = .ok ⟨2, 3, 0, -1, 0⟩ := by rfl
    rw [mainRun_parse_ok hg hv, checkAndRun, if_neg (by decide), if_neg (by decide),
      if_neg (by decide), if_pos (by decide)]

theorem claim_C5_amended_witness :
    checkAndRun ⟨2, 3, 0, -1, 0⟩ [strChars "#define SE_SK_TYPE 0"]
      = ⟨.missingOpt skMissingMsg, [strChars "#define SE_SK_TYPE 0"], []⟩ :=
  ((claim_C5_amended_first_missing_halts.1 ⟨2, 3, 0, -1, 0⟩
    [strChars "#define SE_SK_TYPE 0"]).2.2.2.1)
    (by decide) (by decide) (by decide) (by decide)

/-- C8: every command line on which getopt raises a `GetoptError` makes
the driver print the usage text and terminate with exit status 2,
without invoking the rewriter or touching the file; moreover any single
unrecognized short flag is such a command line, as is any of the five
value options supplied without its required argument. -/
theorem claim_C8_malformed_usage_exit2 :
    (∀ (argv file : List Line), getoptM argv = .error () →
      mainRun argv file = ⟨.usageExit2, file, []⟩) ∧
    (∀ c : Char, c ≠ '-' → shortHasArg c shortoptsArg = .error () →
      getoptM [['-', c]] = .error ()) ∧
    (∀ c ∈ (['i', 'n', 'm', 's', 'd'] : List Char),
      getoptM [['-', c]] = .error ()) := by
  refine ⟨fun argv file h => mainRun_usage h file, ?_, ?_⟩
  · intro c hne hc
    rw [getoptM, getoptLoop_short_err hne hc]
  · intro c hc
    fin_cases hc
    · rw [getoptM, @getoptLoop_short_missing_arg 'i' (by decide) rfl]
    · rw [getoptM, @getoptLoop_short_missing_arg 'n' (by decide) rfl]
    · rw [getoptM, @getoptLoop_short_missing_arg 'm' (by decide) rfl]
    · rw [getoptM, @getoptLoop_short_missing_arg 's' (by decide) rfl]
    · rw [getoptM, @getoptLoop_short_missing_arg 'd' (by decide) rfl]

theorem claim_C8_witness :
    mainRun [['-', 'x']] [strChars "#define SE_IFFT_TYPE 0"]
      = ⟨.usageExit2, [strChars "#define SE_IFFT_TYPE 0"], []⟩ :=
  claim_C8_malformed_usage_exit2.1 [['-', 'x']] [strChars "#define SE_IFFT_TYPE 0"]
    (claim_C8_malformed_usage_exit2.2.1 'x' (by decide) rfl)
